import Mathlib

/-!
Shallow embedding of the canonical keyword resolution engine
(`backend/search/keyword_registry.py` and `backend/search/query_parser.py`).

Strings are modelled as `List Char`; Python `dict`s (which preserve insertion
order and are iterated in that order) are modelled as association lists.
Python exceptions are modelled with `Except`; `None` with `Option`.
-/

namespace DemoSES

/-- Characters treated as whitespace by Python `str.split` / `str.strip`
(space, tab, newline, carriage return, vertical tab, form feed). -/
def isSpaceChar (c : Char) : Bool :=
  c = ' ' || c = '\t' || c = '\n' || c = '\r' || c = '\x0b' || c = '\x0c'

/-- Python `str.strip()`: drop leading and trailing whitespace. -/
def stripStr (s : List Char) : List Char :=
  ((s.dropWhile isSpaceChar).reverse.dropWhile isSpaceChar).reverse

/-- Python `str.lower()` (ASCII case folding, which covers all inputs used here). -/
def lowerStr (s : List Char) : List Char := s.map Char.toLower

/-- Python `str.upper()` (ASCII). -/
def upperStr (s : List Char) : List Char := s.map Char.toUpper

/-- Helper for `splitWs`: accumulate the current word (reversed) while scanning. -/
def splitWsAux : List Char → List Char → List (List Char)
  | [], acc => if acc = [] then [] else [acc.reverse]
  | c :: cs, acc =>
    if isSpaceChar c then
      if acc = [] then splitWsAux cs [] else acc.reverse :: splitWsAux cs []
    else splitWsAux cs (c :: acc)

/-- Python `str.split()` with no argument: maximal runs of non-whitespace. -/
def splitWs (s : List Char) : List (List Char) := splitWsAux s []

/-- Python `" ".join(words)`. -/
def joinSpace : List (List Char) → List Char
  | [] => []
  | [w] => w
  | w :: ws => w ++ ' ' :: joinSpace ws

/-- The normalization computation inside `_normalize_phrase`:
`" ".join(value.strip().lower().split())`. -/
def normalizePhraseRun (value : List Char) : List Char :=
  joinSpace (splitWs (lowerStr (stripStr value)))

/-- Model of `_normalize_phrase` (keyword_registry.py lines 18-22): trim, lowercase,
collapse internal whitespace; raises `ValueError` when the result is empty,
modelled as `none`. -/
def normalizePhrase (value : List Char) : Option (List Char) :=
  let n := normalizePhraseRun value
  if n = [] then none else some n

/-- Shorthand for string literals as character lists. -/
def chars (s : String) : List Char := s.toList

/-! ### Word-boundary search (`re` with pattern `\b<escaped literal>\b`) -/

/-- Python regex `\w` over the ASCII range: letters, digits, underscore. -/
def isWordChar (c : Char) : Bool := c.isAlphanum || c = '_'

/-- Whether position `i` of `t` holds a word character (`false` out of range). -/
def wordAt (t : List Char) (i : Nat) : Bool :=
  match t[i]? with
  | some c => isWordChar c
  | none => false

/-- Regex `\b` at position `i` of `t` (between characters `i-1` and `i`):
a transition between word and non-word, with out-of-range as non-word. -/
def boundaryAt (t : List Char) (i : Nat) : Bool :=
  (decide (i ≠ 0) && wordAt t (i - 1)) != wordAt t i

/-- The literal `p` occurs in `t` starting at index `i`. -/
def occursAt (p t : List Char) (i : Nat) : Bool :=
  decide ((t.drop i).take p.length = p)

/-- The literal `p` occurs at `i` in `t` with `\b` holding on both sides. -/
def boundedOccursAt (p t : List Char) (i : Nat) : Bool :=
  occursAt p t i && boundaryAt t i && boundaryAt t (i + p.length)

/-- Whether `re.search(r"\b<p>\b", t)` succeeds somewhere in `t`. -/
def hasBoundedOccurrence (p t : List Char) : Bool :=
  (List.range (t.length + 1)).any (boundedOccursAt p t)

/-- Model of `_phrase_in_text` (keyword_registry.py lines 25-29): equality, or a
word-boundary-delimited occurrence of the (escaped, hence literal) phrase. -/
def phraseInText (p t : List Char) : Bool :=
  p == t || hasBoundedOccurrence p t

/-- Index of the leftmost `\b<p>\b` match in `t`, as `re.sub(count=1)` finds it. -/
def findFirstBounded (p t : List Char) : Option Nat :=
  (List.range (t.length + 1)).find? (boundedOccursAt p t)

/-- Model of `pattern.sub(" ", t, count=1)` for pattern `\b<p>\b`: replace the leftmost
bounded occurrence of `p` with a single space, or return `t` unchanged. -/
def subFirstBounded (p t : List Char) : List Char :=
  match findFirstBounded p t with
  | some i => t.take i ++ ' ' :: t.drop (i + p.length)
  | none => t

/-! ### Tokenization (`re.findall(r"[a-z0-9@._-]+", remainder)`) -/

/-- Membership in the character class `[a-z0-9@._-]`. -/
def isTokenChar (c : Char) : Bool :=
  ('a' ≤ c && c ≤ 'z') || ('0' ≤ c && c ≤ '9') ||
    c = '@' || c = '.' || c = '_' || c = '-'

/-- Helper for `tokenize`: accumulate the current run (reversed) while scanning. -/
def tokenizeAux : List Char → List Char → List (List Char)
  | [], acc => if acc = [] then [] else [acc.reverse]
  | c :: cs, acc =>
    if isTokenChar c then tokenizeAux cs (c :: acc)
    else if acc = [] then tokenizeAux cs [] else acc.reverse :: tokenizeAux cs []

/-- Model of `re.findall(r"[a-z0-9@._-]+", s)`: maximal runs of token characters. -/
def tokenize (s : List Char) : List (List Char) := tokenizeAux s []

/-- Deduplicate, preserving first-seen order (the `seen` set loop in
`_extract_remainder_tokens`). -/
def dedupKeepFirst : List (List Char) → List (List Char) → List (List Char)
  | [], _ => []
  | t :: ts, seen =>
    if t ∈ seen then dedupKeepFirst ts seen
    else t :: dedupKeepFirst ts (t :: seen)

/-- Model of `_extract_remainder_tokens` (query_parser.py lines 51-63): lowercase the
source and the matched term, delete the first word-bounded occurrence of the
matched term, tokenize, and deduplicate preserving order. -/
def extractRemainderTokens (source matched : List Char) : List (List Char) :=
  let loweredSource := lowerStr source
  let loweredMatch := lowerStr matched
  let remainder := subFirstBounded loweredMatch loweredSource
  dedupKeepFirst (tokenize remainder) []

/-! ### Keyword registry data model (`keyword_registry.py`) -/

/-- Model of `KeywordEntry` (keyword_registry.py lines 32-45). The opaque mappings
`filters`, `boosts`, `rerank` are passed through unexamined by the engine and
are not needed by any claim, so they are omitted from the embedding. -/
structure KeywordEntry where
  canonical_id : String
  terms : List (List Char)
  synonyms : List (List Char)
  typos : List (List Char)
  negative_terms : List (List Char)
deriving DecidableEq

/-- The three lookup tiers, in priority order `exact`, `synonym`, `typo`. -/
inductive Tier where
  | exact
  | synonym
  | typo
deriving DecidableEq

/-- Priority rank of a tier: lower rank is probed first. -/
def Tier.rank : Tier → Nat
  | .exact => 0
  | .synonym => 1
  | .typo => 2

/-- The phrase list of an entry feeding a given tier
(`terms` → exact, `synonyms` → synonym, `typos` → typo). -/
def KeywordEntry.tierPhrases (e : KeywordEntry) : Tier → List (List Char)
  | .exact => e.terms
  | .synonym => e.synonyms
  | .typo => e.typos

/-- Model of `KeywordEntry.all_terms`: terms, synonyms and typos in order. -/
def KeywordEntry.allTerms (e : KeywordEntry) : List (List Char) :=
  e.terms ++ e.synonyms ++ e.typos

/-- One tier's map: normalized phrase → (canonical id, original phrase),
as an insertion-ordered association list (Python `dict`). -/
abbrev Lookup := List (List Char × String × List Char)

/-- Model of `dict.get(key)` on a tier map. -/
def lookupFind (lk : Lookup) (key : List Char) : Option (String × List Char) :=
  (lk.find? (fun p => p.1 == key)).map (fun p => p.2)

/-- Errors raised during registry construction (all `ValueError` in the source,
distinguished here by their message shape). `duplicatePhrase` carries the
offending canonical id and phrase plus the earlier registration, exactly the
data interpolated into the source's message. -/
inductive RegError where
  | emptyPhrase
  | duplicateId (id : String)
  | duplicatePhrase (id : String) (phrase : List Char)
      (existingId : String) (existingPhrase : List Char)
deriving DecidableEq

/-- Model of `KeywordRegistry`: the entry dict plus the three tier maps. -/
structure KeywordRegistry where
  entries : List (String × KeywordEntry)
  exact : Lookup
  synonym : Lookup
  typo : Lookup
deriving DecidableEq

/-- The tier map selected by a `Tier`. -/
def KeywordRegistry.lookups (r : KeywordRegistry) : Tier → Lookup
  | .exact => r.exact
  | .synonym => r.synonym
  | .typo => r.typo

/-- Model of `self._entries.get(cid)` as an association-list lookup. -/
def entryFind (entries : List (String × KeywordEntry)) (cid : String) :
    Option KeywordEntry :=
  (entries.find? (fun p => p.1 == cid)).map (fun p => p.2)

/-- Model of `KeywordRegistry.get` / `self._entries[canonical_id]`, as an `Option`. -/
def KeywordRegistry.getEntry (r : KeywordRegistry) (cid : String) :
    Option KeywordEntry :=
  entryFind r.entries cid

/-- Model of `KeywordRegistry._register_terms` (lines 65-80): normalize each phrase,
fail on an empty normalization or on a key already present in this tier's map,
otherwise insert `(normalized ↦ (canonical_id, phrase))`. -/
def registerTerms (cid : String) : List (List Char) → Lookup → Except RegError Lookup
  | [], lk => .ok lk
  | ph :: phs, lk =>
    match normalizePhrase ph with
    | none => .error .emptyPhrase
    | some n =>
      match lookupFind lk n with
      | some (existingId, existingPhrase) =>
          .error (.duplicatePhrase cid ph existingId existingPhrase)
      | none => registerTerms cid phs (lk ++ [(n, cid, ph)])

/-- The per-entry body of `KeywordRegistry.__init__`'s loop (lines 57-63):
reject a duplicated canonical id, then register terms, synonyms and typos
into their tiers. -/
def addEntry (st : KeywordRegistry) (e : KeywordEntry) :
    Except RegError KeywordRegistry :=
  if (entryFind st.entries e.canonical_id).isSome then
    .error (.duplicateId e.canonical_id)
  else
    match registerTerms e.canonical_id e.terms st.exact with
    | .error err => .error err
    | .ok ex =>
      match registerTerms e.canonical_id e.synonyms st.synonym with
      | .error err => .error err
      | .ok sy =>
        match registerTerms e.canonical_id e.typos st.typo with
        | .error err => .error err
        | .ok ty =>
          .ok { entries := st.entries ++ [(e.canonical_id, e)],
                exact := ex, synonym := sy, typo := ty }

/-- The loop of `KeywordRegistry.__init__` over the entry sequence. -/
def buildRegistry : List KeywordEntry → KeywordRegistry → Except RegError KeywordRegistry
  | [], st => .ok st
  | e :: es, st =>
    match addEntry st e with
    | .error err => .error err
    | .ok st' => buildRegistry es st'

/-- Model of `KeywordRegistry.__init__` (lines 49-63): build the registry from the
given entries, starting from empty maps; any failure aborts construction. -/
def mkRegistry (es : List KeywordEntry) : Except RegError KeywordRegistry :=
  buildRegistry es { entries := [], exact := [], synonym := [], typo := [] }

/-! ### Matching and resolution -/

/-- The result dict of `resolve`:
`{"canonical_id": ..., "matched_term": ..., "mode": ...}`. -/
structure ResolveResult where
  canonical_id : String
  matched_term : List Char
  mode : Tier
deriving DecidableEq

/-- Direct-lookup probe of one tier's map for the normalized query. -/
def probeTier (r : KeywordRegistry) (t : Tier) (nq : List Char) :
    Option ResolveResult :=
  (lookupFind (r.lookups t) nq).map (fun p => ⟨p.1, p.2, t⟩)

/-- Containment scan over one tier's map, in insertion order:
first registered phrase with `_phrase_in_text(normalized_phrase, nq)`. -/
def scanLookup (lk : Lookup) (nq : List Char) :
    Option (List Char × String × List Char) :=
  lk.find? (fun p => phraseInText p.1 nq)

/-- Containment scan of one tier, packaged as a `ResolveResult`. -/
def scanTier (r : KeywordRegistry) (t : Tier) (nq : List Char) :
    Option ResolveResult :=
  (scanLookup (r.lookups t) nq).map (fun p => ⟨p.2.1, p.2.2, t⟩)

/-- The body of `KeywordRegistry.match` (lines 82-94) after normalization:
direct lookups in tier priority order, then containment scans in tier
priority order; first hit wins. The source returns the entry object whose id
is the stored canonical id; the id itself is recorded here, the entry being
recoverable through `getEntry`. -/
def matchNorm (r : KeywordRegistry) (nq : List Char) : Option ResolveResult :=
  (probeTier r .exact nq).orElse fun _ =>
  (probeTier r .synonym nq).orElse fun _ =>
  (probeTier r .typo nq).orElse fun _ =>
  (scanTier r .exact nq).orElse fun _ =>
  (scanTier r .synonym nq).orElse fun _ =>
  (scanTier r .typo nq)

/-- Model of `KeywordRegistry.match` (lines 82-94): `_normalize_phrase` raises on a
query that normalizes to empty; otherwise run the two matching phases. -/
def KeywordRegistry.matchQ (r : KeywordRegistry) (q : List Char) :
    Except RegError (Option ResolveResult) :=
  match normalizePhrase q with
  | none => .error .emptyPhrase
  | some nq => .ok (matchNorm r nq)

/-- Model of `resolve` (lines 183-195), with the registry passed explicitly (the source
defaults it to the cached `load_keywords()` instance): empty or whitespace-only
queries return `None` before matching, so `match`'s empty-normalization error
is unreachable (modelled as `none` in that dead branch). -/
def resolve (r : KeywordRegistry) (q : List Char) : Option ResolveResult :=
  if stripStr q = [] then none
  else
    match r.matchQ q with
    | .error _ => none
    | .ok res => res

/-- The `ValueError` raised by `validate_only`, carrying the query. -/
inductive ValidateError where
  | unapprovedKeyword (query : List Char)
deriving DecidableEq

/-- Model of `validate_only` (lines 198-204), with the registry passed explicitly. -/
def validateOnly (r : KeywordRegistry) (q : List Char) (lenient : Bool) :
    Except ValidateError (Option ResolveResult) :=
  match resolve r q with
  | none => if lenient then .ok none else .error (.unapprovedKeyword q)
  | some m => .ok (some m)

/-! ### Query parser (`query_parser.py`) -/

/-- The two parser policies. -/
inductive Policy where
  | strict
  | lenient
deriving DecidableEq

/-- Errors raised by `parse` (all `ValueError` in the source except the
`KeyError` that `registry.get` would raise on an unknown id). -/
inductive ParseError where
  | invalidInput
  | unsupportedPolicy (policy : List Char)
  | unapprovedKeyword (query : List Char)
  | entryMissing (id : String)
deriving DecidableEq

/-- Model of `_normalize_policy` (query_parser.py lines 42-48): a falsy policy (absent
or empty string) defaults to STRICT; otherwise strip, uppercase, and require
STRICT or LENIENT. -/
def normalizePolicy (policy : Option (List Char)) : Except ParseError Policy :=
  match policy with
  | none => .ok .strict
  | some p =>
    if p = [] then .ok .strict
    else
      let v := upperStr (stripStr p)
      if v = chars "STRICT" then .ok .strict
      else if v = chars "LENIENT" then .ok .lenient
      else .error (.unsupportedPolicy p)

/-- Model of `ParsedQuery` (query_parser.py lines 14-25); the opaque `filters`,
`boosts`, `rerank` mappings are omitted as in `KeywordEntry`. -/
structure ParsedQuery where
  canonical_id : String
  matched_term : List Char
  mode : Tier
  negative_terms : List (List Char)
  must_not : List (List Char)
  ignored : List (List Char)
  raw : List Char
deriving DecidableEq

/-- Model of `parse` (query_parser.py lines 66-104), with the registry passed
explicitly: reject empty/whitespace queries, normalize the policy, resolve;
on no match return `none` under LENIENT and fail under STRICT; on a match,
split the remainder tokens into `must_not` (STRICT) or `ignored` (LENIENT). -/
def parse (r : KeywordRegistry) (q : List Char) (policy : Option (List Char)) :
    Except ParseError (Option ParsedQuery) :=
  if stripStr q = [] then .error .invalidInput
  else
    match normalizePolicy policy with
    | .error err => .error err
    | .ok pol =>
      match resolve r q with
      | none =>
          if pol = .lenient then .ok none
          else .error (.unapprovedKeyword q)
      | some m =>
        match r.getEntry m.canonical_id with
        | none => .error (.entryMissing m.canonical_id)
        | some entry =>
          let remainderTokens := extractRemainderTokens q m.matched_term
          let mustNot := if pol = .strict then remainderTokens else []
          let ignored := if pol = .strict then [] else remainderTokens
          .ok (some
            { canonical_id := entry.canonical_id,
              matched_term := m.matched_term,
              mode := m.mode,
              negative_terms := entry.negative_terms,
              must_not := mustNot,
              ignored := ignored,
              raw := q })

/-! ### Construction invariants and concrete test registries -/

/-- Every record of a tier map points at an entry of the registry that lists
the stored original phrase in that tier, and the key is the phrase's
normalization. -/
def lookupTierOk (entries : List (String × KeywordEntry)) (t : Tier) (lk : Lookup) : Prop :=
  ∀ p ∈ lk, ∃ e, entryFind entries p.2.1 = some e ∧
    p.2.2 ∈ e.tierPhrases t ∧ normalizePhrase p.2.2 = some p.1

/-- Registry invariant established by construction: tier-map records are
backed by registered entries, and each tier map has duplicate-free keys. -/
def RegInv (r : KeywordRegistry) : Prop :=
  (∀ t, lookupTierOk r.entries t (r.lookups t)) ∧
  (∀ t, ((r.lookups t).map Prod.fst).Nodup)

/-- All normalizations feeding tier `t`, across the entries in order
(one list per entry, concatenated). -/
def tierNormJoin (es : List KeywordEntry) (t : Tier) : List (List Char) :=
  (es.map (fun e => (e.tierPhrases t).map normalizePhraseRun)).flatten

/-- A single-entry registry source: `password_reset` with the exact term
`"password reset"` (the spec's running example). -/
def reg3Entries : List KeywordEntry :=
  [⟨"password_reset", [chars "password reset"], [], [], []⟩]

/-- The registry built from `reg3Entries`. -/
def reg3 : KeywordRegistry :=
  ⟨[("password_reset", ⟨"password_reset", [chars "password reset"], [], [], []⟩)],
   [(chars "password reset", "password_reset", chars "password reset")], [], []⟩

/-- Entries where the same phrase `"x"` sits in the `typo` tier of entry `a`
and in the `exact` tier of entry `b` — a cross-tier duplicate. -/
def cexEntries : List KeywordEntry :=
  [⟨"a", [chars "zz"], [], [chars "x"], []⟩,
   ⟨"b", [chars "x"], [], [], []⟩]

/-- The registry built from `cexEntries`. -/
def cexReg : KeywordRegistry :=
  ⟨[("a", ⟨"a", [chars "zz"], [], [chars "x"], []⟩),
    ("b", ⟨"b", [chars "x"], [], [], []⟩)],
   [(chars "zz", "a", chars "zz"), (chars "x", "b", chars "x")],
   [],
   [(chars "x", "a", chars "x")]⟩

/-- Entries whose terms `"reset"` and `"Reset "` collide after normalization
within the `exact` tier. -/
def dupEntries : List KeywordEntry :=
  [⟨"a", [chars "reset"], [], [], []⟩,
   ⟨"b", [chars "Reset "], [], [], []⟩]

/-- Expected STRICT parse of `"urgent password reset please"` against `reg3`. -/
def strictPQ : ParsedQuery :=
  ⟨"password_reset", chars "password reset", .exact, [],
   [chars "urgent", chars "please"], [], chars "urgent password reset please"⟩

/-- Expected LENIENT parse of `"urgent password reset please"` against `reg3`. -/
def lenientPQ : ParsedQuery :=
  ⟨"password_reset", chars "password reset", .exact, [],
   [], [chars "urgent", chars "please"], chars "urgent password reset please"⟩

end DemoSES

deriving instance DecidableEq for Except

namespace DemoSES

theorem normalizePhrase_of_strip_nil {q : List Char} (h : stripStr q = []) :
    normalizePhrase q = none := by
  simp [normalizePhrase, normalizePhraseRun, h, lowerStr, splitWs, splitWsAux, joinSpace]

theorem normalizePhrase_run {q n : List Char} (h : normalizePhrase q = some n) :
    normalizePhraseRun q = n ∧ n ≠ [] := by
  unfold normalizePhrase at h
  by_cases hr : normalizePhraseRun q = []
  · simp [hr] at h
  · simp [hr] at h
    exact ⟨h, h ▸ hr⟩

theorem lookupFind_mem {lk : Lookup} {k : List Char} {v : String × List Char}
    (h : lookupFind lk k = some v) : (k, v) ∈ lk := by
  unfold lookupFind at h
  cases hf : lk.find? (fun p => p.1 == k) with
  | none => rw [hf] at h; simp at h
  | some p =>
    rw [hf] at h
    simp only [Option.map_some'] at h
    have hp := List.find?_some hf
    have hm := List.mem_of_find?_eq_some hf
    have hk : p.1 = k := by simpa using hp
    obtain ⟨p1, p2⟩ := p
    simp at hk h
    subst hk
    subst h
    exact hm

theorem lookupFind_eq_none_iff {lk : Lookup} {k : List Char} :
    lookupFind lk k = none ↔ ∀ p ∈ lk, p.1 ≠ k := by
  unfold lookupFind
  simp [List.find?_eq_none]

theorem mem_lookupFind {lk : Lookup} {k : List Char} {v : String × List Char}
    (hmem : (k, v) ∈ lk) (hnd : (lk.map Prod.fst).Nodup) :
    lookupFind lk k = some v := by
  induction lk with
  | nil => simp at hmem
  | cons p rest ih =>
    simp only [List.map_cons, List.nodup_cons] at hnd
    obtain ⟨hnotin, hnd'⟩ := hnd
    rcases List.mem_cons.mp hmem with heq | htail
    · rw [← heq]
      simp [lookupFind, List.find?]
    · have hk : k ∈ rest.map Prod.fst := List.mem_map.mpr ⟨(k, v), htail, rfl⟩
      have hne : p.1 ≠ k := fun he => hnotin (he ▸ hk)
      simp only [lookupFind, List.find?]
      rw [show (p.1 == k) = false from beq_eq_false_iff_ne.mpr hne]
      exact ih htail hnd'

theorem entryFind_append_left {es l : List (String × KeywordEntry)} {cid : String}
    {e : KeywordEntry} (h : entryFind es cid = some e) :
    entryFind (es ++ l) cid = some e := by
  unfold entryFind at h ⊢
  rw [List.find?_append]
  cases hf : es.find? (fun p => p.1 == cid) with
  | none => rw [hf] at h; simp at h
  | some p => rw [hf] at h; simp [Option.or, h, hf]

theorem entryFind_none_of_map_none {es : List (String × KeywordEntry)} {cid : String}
    (h : entryFind es cid = none) : es.find? (fun p => p.1 == cid) = none := by
  unfold entryFind at h
  cases hf : es.find? (fun p => p.1 == cid) with
  | none => rfl
  | some p => rw [hf] at h; simp at h

theorem entryFind_append_new {es : List (String × KeywordEntry)} {cid : String}
    {e : KeywordEntry} (h : entryFind es cid = none) :
    entryFind (es ++ [(cid, e)]) cid = some e := by
  unfold entryFind
  rw [List.find?_append, entryFind_none_of_map_none h]
  simp [List.find?, Option.or]

theorem entryFind_append_ne {es : List (String × KeywordEntry)} {cid cid' : String}
    {e : KeywordEntry} (h : entryFind es cid' = none) (hne : cid' ≠ cid) :
    entryFind (es ++ [(cid, e)]) cid' = none := by
  unfold entryFind
  rw [List.find?_append, entryFind_none_of_map_none h]
  have hb : ((cid, e).1 == cid') = false := beq_eq_false_iff_ne.mpr fun he => hne he.symm
  simp [List.find?, Option.or, hb]

end DemoSES

namespace DemoSES

theorem registerTerms_origin {cid : String} (phs : List (List Char)) :
    ∀ (lk lk' : Lookup), registerTerms cid phs lk = .ok lk' →
      ∀ p ∈ lk', p ∈ lk ∨
        (p.2.1 = cid ∧ p.2.2 ∈ phs ∧ normalizePhrase p.2.2 = some p.1) := by
  induction phs with
  | nil =>
    intro lk lk' h p hp
    simp only [registerTerms, Except.ok.injEq] at h
    subst h
    exact .inl hp
  | cons ph phs ih =>
    intro lk lk' h p hp
    cases hn : normalizePhrase ph with
    | none => simp [registerTerms, hn] at h
    | some n =>
      cases hf : lookupFind lk n with
      | some pr =>
        obtain ⟨a, b⟩ := pr
        simp [registerTerms, hn, hf] at h
      | none =>
        simp only [registerTerms, hn, hf] at h
        rcases ih _ _ h p hp with hin | ⟨h1, h2, h3⟩
        · rcases List.mem_append.mp hin with h' | h'
          · exact .inl h'
          · simp only [List.mem_singleton] at h'
            subst h'
            exact .inr ⟨rfl, List.mem_cons_self _ _, by simpa using hn⟩
        · exact .inr ⟨h1, List.mem_cons_of_mem _ h2, h3⟩

theorem registerTerms_keys {cid : String} (phs : List (List Char)) :
    ∀ (lk lk' : Lookup), registerTerms cid phs lk = .ok lk' →
      lk'.map Prod.fst = lk.map Prod.fst ++ phs.map normalizePhraseRun := by
  induction phs with
  | nil =>
    intro lk lk' h
    simp only [registerTerms, Except.ok.injEq] at h
    subst h
    simp
  | cons ph phs ih =>
    intro lk lk' h
    cases hn : normalizePhrase ph with
    | none => simp [registerTerms, hn] at h
    | some n =>
      cases hf : lookupFind lk n with
      | some pr =>
        obtain ⟨a, b⟩ := pr
        simp [registerTerms, hn, hf] at h
      | none =>
        simp only [registerTerms, hn, hf] at h
        have hrun := (normalizePhrase_run hn).1
        rw [ih _ _ h]
        simp [hrun]

theorem registerTerms_nodup {cid : String} (phs : List (List Char)) :
    ∀ (lk lk' : Lookup), registerTerms cid phs lk = .ok lk' →
      (lk.map Prod.fst).Nodup → (lk'.map Prod.fst).Nodup := by
  induction phs with
  | nil =>
    intro lk lk' h hnd
    simp only [registerTerms, Except.ok.injEq] at h
    subst h
    exact hnd
  | cons ph phs ih =>
    intro lk lk' h hnd
    cases hn : normalizePhrase ph with
    | none => simp [registerTerms, hn] at h
    | some n =>
      cases hf : lookupFind lk n with
      | some pr =>
        obtain ⟨a, b⟩ := pr
        simp [registerTerms, hn, hf] at h
      | none =>
        simp only [registerTerms, hn, hf] at h
        refine ih _ _ h ?_
        rw [List.map_append, List.nodup_append]
        refine ⟨hnd, by simp, ?_⟩
        intro a ha hb
        simp at hb
        subst hb
        rcases List.mem_map.mp ha with ⟨q, hq, hq1⟩
        exact lookupFind_eq_none_iff.mp hf q hq hq1

theorem registerTerms_total {cid : String} (phs : List (List Char)) :
    ∀ (lk : Lookup), (∀ ph ∈ phs, normalizePhrase ph ≠ none) →
      (∃ lk', registerTerms cid phs lk = .ok lk') ∨
      (∃ a b c d, registerTerms cid phs lk = .error (.duplicatePhrase a b c d)) := by
  induction phs with
  | nil => intro lk _; exact .inl ⟨lk, rfl⟩
  | cons ph phs ih =>
    intro lk hne
    cases hn : normalizePhrase ph with
    | none => exact absurd hn (hne ph (List.mem_cons_self _ _))
    | some n =>
      cases hf : lookupFind lk n with
      | some pr =>
        obtain ⟨a, b⟩ := pr
        refine .inr ⟨cid, ph, a, b, ?_⟩
        simp [registerTerms, hn, hf]
      | none =>
        have step : registerTerms cid (ph :: phs) lk
            = registerTerms cid phs (lk ++ [(n, cid, ph)]) := by
          simp [registerTerms, hn, hf]
        rw [step]
        exact ih _ (fun q hq => hne q (List.mem_cons_of_mem _ hq))

end DemoSES

namespace DemoSES

theorem addEntry_ok {st : KeywordRegistry} {e : KeywordEntry} {st' : KeywordRegistry}
    (h : addEntry st e = .ok st') :
    entryFind st.entries e.canonical_id = none ∧
    st'.entries = st.entries ++ [(e.canonical_id, e)] ∧
    registerTerms e.canonical_id e.terms st.exact = .ok st'.exact ∧
    registerTerms e.canonical_id e.synonyms st.synonym = .ok st'.synonym ∧
    registerTerms e.canonical_id e.typos st.typo = .ok st'.typo := by
  unfold addEntry at h
  cases hid : entryFind st.entries e.canonical_id with
  | some e' => rw [hid] at h; simp at h
  | none =>
    rw [hid] at h
    simp only [Option.isSome_none, Bool.false_eq_true, if_false] at h
    cases hex : registerTerms e.canonical_id e.terms st.exact with
    | error err => rw [hex] at h; simp at h
    | ok ex =>
      rw [hex] at h
      cases hsy : registerTerms e.canonical_id e.synonyms st.synonym with
      | error err => rw [hsy] at h; simp at h
      | ok sy =>
        rw [hsy] at h
        cases hty : registerTerms e.canonical_id e.typos st.typo with
        | error err => rw [hty] at h; simp at h
        | ok ty =>
          rw [hty] at h
          simp only [Except.ok.injEq] at h
          subst h
          exact ⟨rfl, rfl, rfl, rfl, rfl⟩

theorem addEntry_inv {st : KeywordRegistry} {e : KeywordEntry} {st' : KeywordRegistry}
    (h : addEntry st e = .ok st') (hinv : RegInv st) : RegInv st' := by
  obtain ⟨hid, hent, hex, hsy, hty⟩ := addEntry_ok h
  obtain ⟨hok, hnd⟩ := hinv
  constructor
  · intro t p hp
    have hreg : registerTerms e.canonical_id (e.tierPhrases t) (st.lookups t) = .ok (st'.lookups t) := by
      cases t
      · exact hex
      · exact hsy
      · exact hty
    rcases registerTerms_origin _ _ _ hreg p hp with hold | ⟨h1, h2, h3⟩
    · obtain ⟨e', he', hmem, hn⟩ := hok t p hold
      exact ⟨e', hent ▸ entryFind_append_left he', hmem, hn⟩
    · refine ⟨e, ?_, h2, h3⟩
      rw [hent, h1]
      exact entryFind_append_new hid
  · intro t
    have hreg : registerTerms e.canonical_id (e.tierPhrases t) (st.lookups t) = .ok (st'.lookups t) := by
      cases t
      · exact hex
      · exact hsy
      · exact hty
    exact registerTerms_nodup _ _ _ hreg (hnd t)

theorem buildRegistry_inv (es : List KeywordEntry) :
    ∀ (st r : KeywordRegistry), buildRegistry es st = .ok r → RegInv st → RegInv r := by
  induction es with
  | nil =>
    intro st r h hi
    simp only [buildRegistry, Except.ok.injEq] at h
    subst h
    exact hi
  | cons e es ih =>
    intro st r h hi
    cases ha : addEntry st e with
    | error err => simp [buildRegistry, ha] at h
    | ok st₁ =>
      simp only [buildRegistry, ha] at h
      exact ih _ _ h (addEntry_inv ha hi)

theorem mkRegistry_inv {es : List KeywordEntry} {r : KeywordRegistry}
    (h : mkRegistry es = .ok r) : RegInv r := by
  refine buildRegistry_inv es _ r h ⟨?_, ?_⟩
  · intro t p hp
    cases t <;> simp [KeywordRegistry.lookups] at hp
  · intro t
    cases t <;> simp [KeywordRegistry.lookups]

theorem addEntry_keys {st : KeywordRegistry} {e : KeywordEntry} {st' : KeywordRegistry}
    (h : addEntry st e = .ok st') (t : Tier) :
    (st'.lookups t).map Prod.fst
      = (st.lookups t).map Prod.fst ++ (e.tierPhrases t).map normalizePhraseRun := by
  obtain ⟨hid, hent, hex, hsy, hty⟩ := addEntry_ok h
  cases t
  · exact registerTerms_keys _ _ _ hex
  · exact registerTerms_keys _ _ _ hsy
  · exact registerTerms_keys _ _ _ hty

theorem buildRegistry_keys (t : Tier) (es : List KeywordEntry) :
    ∀ (st r : KeywordRegistry), buildRegistry es st = .ok r →
      (r.lookups t).map Prod.fst = (st.lookups t).map Prod.fst ++ tierNormJoin es t := by
  induction es with
  | nil =>
    intro st r h
    simp only [buildRegistry, Except.ok.injEq] at h
    subst h
    simp [tierNormJoin]
  | cons e es ih =>
    intro st r h
    cases ha : addEntry st e with
    | error err => simp [buildRegistry, ha] at h
    | ok st₁ =>
      simp only [buildRegistry, ha] at h
      rw [ih _ _ h, addEntry_keys ha t]
      simp [tierNormJoin, List.append_assoc]

theorem mkRegistry_keys {es : List KeywordEntry} {r : KeywordRegistry}
    (h : mkRegistry es = .ok r) (t : Tier) :
    (r.lookups t).map Prod.fst = tierNormJoin es t := by
  have := buildRegistry_keys t es _ r h
  cases t <;> simpa [KeywordRegistry.lookups] using this

end DemoSES

namespace DemoSES

theorem addEntry_total {st : KeywordRegistry} {e : KeywordEntry}
    (hid : entryFind st.entries e.canonical_id = none)
    (hne : ∀ ph ∈ e.allTerms, normalizePhrase ph ≠ none) :
    (∃ st', addEntry st e = .ok st') ∨
    (∃ a b c d, addEntry st e = .error (.duplicatePhrase a b c d)) := by
  have hterms : ∀ ph ∈ e.terms, normalizePhrase ph ≠ none := fun ph hp =>
    hne ph (List.mem_append_left _ (List.mem_append_left _ hp))
  have hsyn : ∀ ph ∈ e.synonyms, normalizePhrase ph ≠ none := fun ph hp =>
    hne ph (List.mem_append_left _ (List.mem_append_right _ hp))
  have htyp : ∀ ph ∈ e.typos, normalizePhrase ph ≠ none := fun ph hp =>
    hne ph (List.mem_append_right _ hp)
  unfold addEntry
  rw [hid]
  simp only [Option.isSome_none, Bool.false_eq_true, if_false]
  rcases @registerTerms_total e.canonical_id e.terms st.exact hterms with
    ⟨ex, hex⟩ | ⟨a, b, c, d, hex⟩
  · rw [hex]
    rcases @registerTerms_total e.canonical_id e.synonyms st.synonym hsyn with
      ⟨sy, hsy⟩ | ⟨a, b, c, d, hsy⟩
    · rw [hsy]
      rcases @registerTerms_total e.canonical_id e.typos st.typo htyp with
        ⟨ty, hty⟩ | ⟨a, b, c, d, hty⟩
      · rw [hty]
        exact .inl ⟨_, rfl⟩
      · rw [hty]
        exact .inr ⟨a, b, c, d, rfl⟩
    · rw [hsy]
      exact .inr ⟨a, b, c, d, rfl⟩
  · rw [hex]
    exact .inr ⟨a, b, c, d, rfl⟩

theorem buildRegistry_total (es : List KeywordEntry) :
    ∀ (st : KeywordRegistry),
      (∀ e ∈ es, ∀ ph ∈ e.allTerms, normalizePhrase ph ≠ none) →
      (∀ e ∈ es, entryFind st.entries e.canonical_id = none) →
      (es.map KeywordEntry.canonical_id).Nodup →
      (∃ r, buildRegistry es st = .ok r) ∨
      (∃ a b c d, buildRegistry es st = .error (.duplicatePhrase a b c d)) := by
  induction es with
  | nil => intro st _ _ _; exact .inl ⟨st, rfl⟩
  | cons e es ih =>
    intro st hne hid hnd
    rcases addEntry_total (hid e (List.mem_cons_self _ _))
        (hne e (List.mem_cons_self _ _)) with ⟨st₁, ha⟩ | ⟨a, b, c, d, ha⟩
    · have hstep : buildRegistry (e :: es) st = buildRegistry es st₁ := by
        simp [buildRegistry, ha]
      rw [hstep]
      simp only [List.map_cons, List.nodup_cons] at hnd
      obtain ⟨hnotin, hnd'⟩ := hnd
      refine ih st₁ (fun e' he' => hne e' (List.mem_cons_of_mem _ he')) ?_ hnd'
      intro e' he'
      have hent := (addEntry_ok ha).2.1
      rw [hent]
      refine entryFind_append_ne (hid e' (List.mem_cons_of_mem _ he')) ?_
      intro hcontra
      exact hnotin (hcontra ▸ List.mem_map.mpr ⟨e', he', rfl⟩)
    · refine .inr ⟨a, b, c, d, ?_⟩
      simp [buildRegistry, ha]

theorem resolve_eq_matchNorm {r : KeywordRegistry} {q : List Char} {res : ResolveResult}
    (h : resolve r q = some res) :
    ∃ nq, normalizePhrase q = some nq ∧ matchNorm r nq = some res := by
  unfold resolve at h
  by_cases hs : stripStr q = []
  · rw [if_pos hs] at h; cases h
  · rw [if_neg hs] at h
    unfold KeywordRegistry.matchQ at h
    cases hn : normalizePhrase q with
    | none => rw [hn] at h; cases h
    | some nq => rw [hn] at h; exact ⟨nq, rfl, h⟩

theorem resolve_of_matchNorm {r : KeywordRegistry} {q nq : List Char}
    (hn : normalizePhrase q = some nq) :
    resolve r q = matchNorm r nq := by
  have hs : ¬ stripStr q = [] := by
    intro hs
    rw [normalizePhrase_of_strip_nil hs] at hn
    cases hn
  unfold resolve KeywordRegistry.matchQ
  rw [if_neg hs, hn]

theorem matchNorm_mem {r : KeywordRegistry} {nq : List Char} {res : ResolveResult}
    (h : matchNorm r nq = some res) :
    ∃ t n, (n, res.canonical_id, res.matched_term) ∈ r.lookups t ∧ res.mode = t := by
  unfold matchNorm at h
  have probe : ∀ t, probeTier r t nq = some res →
      ∃ t' n, (n, res.canonical_id, res.matched_term) ∈ r.lookups t' ∧ res.mode = t' := by
    intro t hp
    unfold probeTier at hp
    cases hf : lookupFind (r.lookups t) nq with
    | none => rw [hf] at hp; cases hp
    | some v =>
      rw [hf] at hp
      simp only [Option.map_some', Option.some.injEq] at hp
      subst hp
      exact ⟨t, nq, lookupFind_mem hf, rfl⟩
  have scan : ∀ t, scanTier r t nq = some res →
      ∃ t' n, (n, res.canonical_id, res.matched_term) ∈ r.lookups t' ∧ res.mode = t' := by
    intro t hp
    unfold scanTier scanLookup at hp
    cases hf : (r.lookups t).find? (fun p => phraseInText p.1 nq) with
    | none => rw [hf] at hp; cases hp
    | some pr =>
      rw [hf] at hp
      simp only [Option.map_some', Option.some.injEq] at hp
      obtain ⟨n, c, ph⟩ := pr
      subst hp
      exact ⟨t, n, List.mem_of_find?_eq_some hf, rfl⟩
  cases h1 : probeTier r .exact nq with
  | some v => rw [h1] at h; simp only [Option.orElse] at h; exact probe _ (h1.trans h)
  | none =>
    rw [h1] at h
    simp only [Option.orElse] at h
    cases h2 : probeTier r .synonym nq with
    | some v => rw [h2] at h; simp only [Option.orElse] at h; exact probe _ (h2.trans h)
    | none =>
      rw [h2] at h
      simp only [Option.orElse] at h
      cases h3 : probeTier r .typo nq with
      | some v => rw [h3] at h; simp only [Option.orElse] at h; exact probe _ (h3.trans h)
      | none =>
        rw [h3] at h
        simp only [Option.orElse] at h
        cases h4 : scanTier r .exact nq with
        | some v => rw [h4] at h; simp only [Option.orElse] at h; exact scan _ (h4.trans h)
        | none =>
          rw [h4] at h
          simp only [Option.orElse] at h
          cases h5 : scanTier r .synonym nq with
          | some v => rw [h5] at h; simp only [Option.orElse] at h; exact scan _ (h5.trans h)
          | none =>
            rw [h5] at h
            simp only [Option.orElse] at h
            exact scan _ h

end DemoSES

namespace DemoSES

/-- Claim C5: a registered phrase occurring in the normalized query only as a
substring without word-character boundaries on both sides (and not equal to
the whole query) is not matched by `_phrase_in_text`, so the containment scan
never selects that phrase. -/
theorem claim_C5 (p nq : List Char) (hne : p ≠ nq)
    (hnob : ∀ i ≤ nq.length, boundedOccursAt p nq i = false) :
    phraseInText p nq = false ∧
    ∀ (lk : Lookup) (pr : List Char × String × List Char),
      scanLookup lk nq = some pr → pr.1 ≠ p := by
  have hhas : hasBoundedOccurrence p nq = false := by
    unfold hasBoundedOccurrence
    rw [List.any_eq_false]
    intro i hi
    have hle : i ≤ nq.length := Nat.lt_succ_iff.mp (List.mem_range.mp hi)
    simp [hnob i hle]
  have hpit : phraseInText p nq = false := by
    unfold phraseInText
    rw [hhas]
    simp [hne]
  refine ⟨hpit, ?_⟩
  intro lk pr hscan heq
  have hfound := List.find?_some hscan
  rw [heq, hpit] at hfound
  cases hfound

/-- Witness for C5 at the spec's example shape: the phrase `"sting"` inside
the longer word `"stings"`. -/
theorem claim_C5_witness :
    phraseInText (chars "sting") (chars "stings") = false ∧
    ∀ (lk : Lookup) (pr : List Char × String × List Char),
      scanLookup lk (chars "stings") = some pr → pr.1 ≠ chars "sting" :=
  claim_C5 (chars "sting") (chars "stings") (by decide) (by decide)

/-- Counterexample to claim C6: `resolve` on a whitespace-only query returns
`None` (treating it as "no match") instead of failing with `InvalidInput`. -/
theorem claim_C6_counterexample : resolve cexReg (chars "   ") = none := by decide

/-- Claim C6 amended: `KeywordRegistry.match` and `parse` do reject an
empty or whitespace-only query with an error, but the `resolve` facade
short-circuits such queries to `None` without raising. -/
theorem claim_C6_amended (r : KeywordRegistry) (q : List Char)
    (pol : Option (List Char)) (h : stripStr q = []) :
    resolve r q = none ∧ r.matchQ q = .error .emptyPhrase ∧
    parse r q pol = .error .invalidInput := by
  have hn := normalizePhrase_of_strip_nil h
  refine ⟨?_, ?_, ?_⟩
  · unfold resolve
    rw [if_pos h]
  · unfold KeywordRegistry.matchQ
    rw [hn]
  · unfold parse
    rw [if_pos h]

/-- Witness for the amended C6 at the whitespace query `"   "`. -/
theorem claim_C6_witness :
    resolve cexReg (chars "   ") = none ∧
    cexReg.matchQ (chars "   ") = .error .emptyPhrase ∧
    parse cexReg (chars "   ") none = .error .invalidInput :=
  claim_C6_amended cexReg (chars "   ") none (by decide)

/-- Claim C7: `validate_only` with `lenient=False` raises `UnapprovedKeyword`
exactly when resolution returns none, and returns the resolution otherwise;
with `lenient=True` it returns the resolution (possibly none) and never
raises. -/
theorem claim_C7 (r : KeywordRegistry) (q : List Char) :
    (validateOnly r q false = .error (.unapprovedKeyword q) ↔ resolve r q = none) ∧
    (∀ res, resolve r q = some res → ∀ lenient, validateOnly r q lenient = .ok (some res)) ∧
    validateOnly r q true = .ok (resolve r q) ∧
    ∀ err, validateOnly r q true ≠ .error err := by
  cases hres : resolve r q with
  | none =>
    unfold validateOnly
    rw [hres]
    simp
  | some m =>
    unfold validateOnly
    rw [hres]
    simp

/-- Witness for C7: an unknown query raises under strict, a registered one
resolves under lenient. -/
theorem claim_C7_witness :
    validateOnly cexReg (chars "unapproved query") false
      = .error (.unapprovedKeyword (chars "unapproved query")) ∧
    validateOnly cexReg (chars "x") true = .ok (some ⟨"b", chars "x", .exact⟩) :=
  ⟨(claim_C7 cexReg (chars "unapproved query")).1.mpr (by decide),
   (claim_C7 cexReg (chars "x")).2.1 ⟨"b", chars "x", .exact⟩ (by decide) true⟩

end DemoSES

namespace DemoSES

/-- Counterexample to claim C8: the empty-string policy is neither STRICT nor
LENIENT case-insensitively, yet `parse` does not fail with
`UnsupportedPolicy` — a falsy policy silently defaults to STRICT. -/
theorem claim_C8_counterexample :
    upperStr (stripStr []) ≠ chars "STRICT" ∧
    upperStr (stripStr []) ≠ chars "LENIENT" ∧
    parse reg3 (chars "password reset") (some [])
      = .ok (some ⟨"password_reset", chars "password reset", .exact, [],
          [], [], chars "password reset"⟩) := by
  decide

/-- Claim C8 amended: a non-empty policy whose stripped, uppercased value is
neither STRICT nor LENIENT makes `parse` fail with `UnsupportedPolicy`;
STRICT and LENIENT are accepted in any letter case (with surrounding
whitespace); an absent or empty policy defaults to STRICT instead of
failing. -/
theorem claim_C8_amended :
    (∀ (r : KeywordRegistry) (q pol : List Char), stripStr q ≠ [] → pol ≠ [] →
      upperStr (stripStr pol) ≠ chars "STRICT" →
      upperStr (stripStr pol) ≠ chars "LENIENT" →
      parse r q (some pol) = .error (.unsupportedPolicy pol)) ∧
    (∀ pol : List Char, pol ≠ [] → upperStr (stripStr pol) = chars "STRICT" →
      normalizePolicy (some pol) = .ok .strict) ∧
    (∀ pol : List Char, pol ≠ [] → upperStr (stripStr pol) = chars "LENIENT" →
      normalizePolicy (some pol) = .ok .lenient) ∧
    normalizePolicy (some []) = .ok .strict ∧
    normalizePolicy none = .ok .strict := by
  refine ⟨?_, ?_, ?_, by decide, rfl⟩
  · intro r q pol hq hpol h1 h2
    have hnp : normalizePolicy (some pol) = .error (.unsupportedPolicy pol) := by
      simp [normalizePolicy, hpol, h1, h2]
    unfold parse
    rw [if_neg hq, hnp]
  · intro pol hpol h1
    simp [normalizePolicy, hpol, h1]
  · intro pol hpol h2
    simp [normalizePolicy, hpol, h2]
    decide

/-- Witness for the amended C8 at the policy string `"bogus"`. -/
theorem claim_C8_witness :
    parse reg3 (chars "password reset") (some (chars "bogus"))
      = .error (.unsupportedPolicy (chars "bogus")) :=
  claim_C8_amended.1 reg3 (chars "password reset") (chars "bogus")
    (by decide) (by decide) (by decide) (by decide)

/-- Claim C10: a query can resolve through whitespace-collapsing
normalization while its lowercased raw text has no word-bounded occurrence of
the matched term; then remainder extraction removes nothing, so the matched
phrase's own words come back as remainder tokens, classified into `must_not`
under STRICT and `ignored` under LENIENT — witnessed by `"password  reset"`
(two spaces) against the term `"password reset"`. -/
theorem claim_C10 :
    (∀ source matched : List Char,
      (∀ i ≤ (lowerStr source).length,
        boundedOccursAt (lowerStr matched) (lowerStr source) i = false) →
      extractRemainderTokens source matched
        = dedupKeepFirst (tokenize (lowerStr source)) []) ∧
    hasBoundedOccurrence (lowerStr (chars "password reset"))
      (lowerStr (chars "password  reset")) = false ∧
    resolve reg3 (chars "password  reset")
      = some ⟨"password_reset", chars "password reset", .exact⟩ ∧
    parse reg3 (chars "password  reset") (some (chars "STRICT"))
      = .ok (some ⟨"password_reset", chars "password reset", .exact, [],
          [chars "password", chars "reset"], [], chars "password  reset"⟩) ∧
    parse reg3 (chars "password  reset") (some (chars "LENIENT"))
      = .ok (some ⟨"password_reset", chars "password reset", .exact, [],
          [], [chars "password", chars "reset"], chars "password  reset"⟩) := by
  refine ⟨?_, by decide, by decide, by decide, by decide⟩
  intro source matched hnob
  have hff : findFirstBounded (lowerStr matched) (lowerStr source) = none := by
    unfold findFirstBounded
    rw [List.find?_eq_none]
    intro i hi
    have hle : i ≤ (lowerStr source).length := Nat.lt_succ_iff.mp (List.mem_range.mp hi)
    simp [hnob i hle]
  simp only [extractRemainderTokens, subFirstBounded, hff]

/-- Witness for C10's universal part at the double-space query. -/
theorem claim_C10_witness :
    extractRemainderTokens (chars "password  reset") (chars "password reset")
      = dedupKeepFirst (tokenize (lowerStr (chars "password  reset"))) [] :=
  claim_C10.1 (chars "password  reset") (chars "password reset") (by decide)

end DemoSES

namespace DemoSES

/-- Counterexample to claim C2: `cexEntries` places the same normalized
phrase `"x"` in the `typo` tier of one entry and the `exact` tier of another;
construction nevertheless succeeds, so the tier maps' key sets are not
pairwise disjoint. -/
theorem claim_C2_counterexample :
    mkRegistry cexEntries = .ok cexReg ∧
    chars "x" ∈ cexReg.exact.map Prod.fst ∧
    chars "x" ∈ cexReg.typo.map Prod.fst := by
  decide

/-- Claim C2 amended: in every successfully constructed registry each single
tier map has duplicate-free keys (uniqueness is enforced only within a tier,
not across tiers), and every tier-map value's canonical id exists in the
entry set. -/
theorem claim_C2_amended (es : List KeywordEntry) (r : KeywordRegistry)
    (hok : mkRegistry es = .ok r) :
    (∀ t, ((r.lookups t).map Prod.fst).Nodup) ∧
    (∀ t, ∀ p ∈ r.lookups t, (r.getEntry p.2.1).isSome = true) := by
  obtain ⟨hokk, hnd⟩ := mkRegistry_inv hok
  refine ⟨hnd, ?_⟩
  intro t p hp
  obtain ⟨e, he, _, _⟩ := hokk t p hp
  simp [KeywordRegistry.getEntry, he]

/-- Witness for the amended C2 on the concrete registry `cexReg`. -/
theorem claim_C2_witness :
    (∀ t, ((cexReg.lookups t).map Prod.fst).Nodup) ∧
    (∀ t, ∀ p ∈ cexReg.lookups t, (cexReg.getEntry p.2.1).isSome = true) :=
  claim_C2_amended cexEntries cexReg (by decide)

/-- Counterexample to claim C1: in `cexReg` the phrase `"x"` is registered
under the `typo` tier of entry `a`, yet `resolve` returns entry `b` with tier
`exact`, because the same normalized phrase is also registered in the
higher-priority `exact` tier of `b`. -/
theorem claim_C1_counterexample :
    mkRegistry cexEntries = .ok cexReg ∧
    (chars "x", "a", chars "x") ∈ cexReg.lookups .typo ∧
    resolve cexReg (chars "x") ≠ some ⟨"a", chars "x", .typo⟩ ∧
    resolve cexReg (chars "x") = some ⟨"b", chars "x", .exact⟩ := by
  decide

/-- Claim C1 amended: for a phrase registered under tier `t` whose normalized
form is not a key of any higher-priority tier map, every query normalizing to
that phrase resolves, via the direct-lookup phase in priority order
exact → synonym → typo, to the registering entry's id, the original phrase,
and tier `t`. -/
theorem claim_C1_amended (es : List KeywordEntry) (r : KeywordRegistry)
    (t : Tier) (n : List Char) (cid : String) (ph q : List Char)
    (hok : mkRegistry es = .ok r)
    (hmem : (n, cid, ph) ∈ r.lookups t)
    (hq : normalizePhrase q = some n)
    (hhigher : ∀ t', t'.rank < t.rank → lookupFind (r.lookups t') n = none) :
    resolve r q = some ⟨cid, ph, t⟩ := by
  obtain ⟨hokk, hnd⟩ := mkRegistry_inv hok
  have hfind : lookupFind (r.lookups t) n = some (cid, ph) :=
    mem_lookupFind hmem (hnd t)
  rw [resolve_of_matchNorm hq]
  unfold matchNorm
  cases t with
  | exact =>
    have h1 : probeTier r .exact n = some ⟨cid, ph, .exact⟩ := by
      unfold probeTier
      rw [hfind]
      rfl
    rw [h1]
    rfl
  | synonym =>
    have h1 : probeTier r .exact n = none := by
      unfold probeTier
      rw [hhigher .exact (by decide)]
      rfl
    have h2 : probeTier r .synonym n = some ⟨cid, ph, .synonym⟩ := by
      unfold probeTier
      rw [hfind]
      rfl
    rw [h1, h2]
    rfl
  | typo =>
    have h1 : probeTier r .exact n = none := by
      unfold probeTier
      rw [hhigher .exact (by decide)]
      rfl
    have h2 : probeTier r .synonym n = none := by
      unfold probeTier
      rw [hhigher .synonym (by decide)]
      rfl
    have h3 : probeTier r .typo n = some ⟨cid, ph, .typo⟩ := by
      unfold probeTier
      rw [hfind]
      rfl
    rw [h1, h2, h3]
    rfl

/-- Witness for the amended C1: `"x"`, registered (exactly) in the `exact`
tier of entry `b` of `cexReg` with no higher tier to shadow it, resolves to
`b` with tier `exact`. -/
theorem claim_C1_witness :
    resolve cexReg (chars "x") = some ⟨"b", chars "x", Tier.exact⟩ :=
  claim_C1_amended cexEntries cexReg .exact (chars "x") "b" (chars "x") (chars "x")
    (by decide) (by decide) (by decide)
    (fun _ h => absurd h (Nat.not_lt_zero _))

/-- Claim C9: whenever `resolve` returns a result, the matched term is one of
the phrases (terms, synonyms or typos) originally registered for the entry
whose id is the returned canonical id. -/
theorem claim_C9 (es : List KeywordEntry) (r : KeywordRegistry)
    (q : List Char) (res : ResolveResult)
    (hok : mkRegistry es = .ok r) (hres : resolve r q = some res) :
    ∃ e, r.getEntry res.canonical_id = some e ∧ res.matched_term ∈ e.allTerms := by
  obtain ⟨hokk, _⟩ := mkRegistry_inv hok
  obtain ⟨nq, hnq, hm⟩ := resolve_eq_matchNorm hres
  obtain ⟨t, n, hmem, _⟩ := matchNorm_mem hm
  obtain ⟨e, he, hph, _⟩ := hokk t _ hmem
  refine ⟨e, he, ?_⟩
  cases t with
  | exact =>
    exact List.mem_append_left _ (List.mem_append_left _ hph)
  | synonym =>
    exact List.mem_append_left _ (List.mem_append_right _ hph)
  | typo =>
    exact List.mem_append_right _ hph

/-- Witness for C9 at the query `"x"` against `cexReg`. -/
theorem claim_C9_witness :
    ∃ e, cexReg.getEntry "b" = some e ∧ chars "x" ∈ e.allTerms :=
  claim_C9 cexEntries cexReg (chars "x") ⟨"b", chars "x", .exact⟩
    (by decide) (by decide)

end DemoSES

namespace DemoSES

/-- Claim C3: the spec's STRICT/LENIENT example on
`"urgent password reset please"`, and in general every successful parse puts
all remainder tokens into `must_not` with `ignored` empty under STRICT, or
into `ignored` with `must_not` empty under LENIENT, so at most one of the two
is non-empty. -/
theorem claim_C3 :
    (parse reg3 (chars "urgent password reset please") (some (chars "STRICT"))
       = .ok (some strictPQ) ∧
     strictPQ.must_not = [chars "urgent", chars "please"] ∧ strictPQ.ignored = []) ∧
    (parse reg3 (chars "urgent password reset please") (some (chars "LENIENT"))
       = .ok (some lenientPQ) ∧
     lenientPQ.must_not = [] ∧ lenientPQ.ignored = [chars "urgent", chars "please"]) ∧
    (∀ (r : KeywordRegistry) (q : List Char) (pol : Option (List Char)) (pq : ParsedQuery),
      parse r q pol = .ok (some pq) →
      (normalizePolicy pol = .ok .strict →
        pq.must_not = extractRemainderTokens q pq.matched_term ∧ pq.ignored = []) ∧
      (normalizePolicy pol = .ok .lenient →
        pq.ignored = extractRemainderTokens q pq.matched_term ∧ pq.must_not = []) ∧
      (pq.must_not = [] ∨ pq.ignored = [])) := by
  refine ⟨⟨by decide, by decide, by decide⟩, ⟨by decide, by decide, by decide⟩, ?_⟩
  intro r q pol pq h
  unfold parse at h
  by_cases hq : stripStr q = []
  · rw [if_pos hq] at h
    cases h
  · rw [if_neg hq] at h
    split at h
    · cases h
    · rename_i pv hnp
      split at h
      · split at h
        · simp at h
        · cases h
      · rename_i m hres
        split at h
        · cases h
        · rename_i entry hge
          simp only [Except.ok.injEq, Option.some.injEq] at h
          subst h
          cases pv with
          | strict =>
            refine ⟨fun _ => ⟨by simp, by simp⟩, fun hc => ?_, ?_⟩
            · rw [hnp] at hc
              simp at hc
            · right
              simp
          | lenient =>
            refine ⟨fun hc => ?_, fun _ => ⟨by simp, by simp⟩, ?_⟩
            · rw [hnp] at hc
              simp at hc
            · left
              simp

/-- Witness for C3's universal part at the STRICT example parse. -/
theorem claim_C3_witness :
    strictPQ.must_not
        = extractRemainderTokens (chars "urgent password reset please") strictPQ.matched_term ∧
    strictPQ.ignored = [] :=
  (claim_C3.2.2 reg3 (chars "urgent password reset please") (some (chars "STRICT"))
    strictPQ (by decide)).1 (by decide)

/-- Claim C4: when all phrases of validated entries normalize to non-empty
strings and entry ids are distinct, a same-tier normalization collision
(within one entry or across entries) makes construction fail with
`DuplicatePhrase` carrying the offending id and phrase; the concrete
`dupEntries` collision names id `b` and phrase `"Reset "` against the earlier
`("a", "reset")`, while the cross-tier duplicate in `cexEntries` constructs
successfully. -/
theorem claim_C4 :
    (∀ (es : List KeywordEntry) (t : Tier),
      (∀ e ∈ es, ∀ ph ∈ e.allTerms, normalizePhrase ph ≠ none) →
      (es.map KeywordEntry.canonical_id).Nodup →
      ¬ (tierNormJoin es t).Nodup →
      ∃ a b c d, mkRegistry es = .error (.duplicatePhrase a b c d)) ∧
    mkRegistry dupEntries
      = .error (.duplicatePhrase "b" (chars "Reset ") "a" (chars "reset")) ∧
    (∃ r, mkRegistry cexEntries = .ok r) := by
  refine ⟨?_, by decide, ⟨cexReg, by decide⟩⟩
  intro es t hne hids hcol
  rcases buildRegistry_total es ⟨[], [], [], []⟩ hne (fun _ _ => rfl) hids with
    ⟨r, hr⟩ | ⟨a, b, c, d, herr⟩
  · exfalso
    apply hcol
    have hr' : mkRegistry es = .ok r := hr
    have hkeys := mkRegistry_keys hr' t
    have hnd := (mkRegistry_inv hr').2 t
    rw [hkeys] at hnd
    exact hnd
  · exact ⟨a, b, c, d, herr⟩

/-- Witness for C4's universal part at the colliding `dupEntries`. -/
theorem claim_C4_witness :
    ∃ a b c d, mkRegistry dupEntries = .error (.duplicatePhrase a b c d) :=
  claim_C4.1 dupEntries .exact (by decide) (by decide) (by decide)

end DemoSES
